import Mathlib

/-!
Verification development for the ScripTrans Browscap engine
(source: ec_browscap.py, class BrowscapCache).

The Python source is shallowly embedded:
* Browscap data rows are association lists (Python dicts preserve insertion
  order, and all rows read from one CSV file have pairwise-distinct keys).
* Typed field values (bool / int / float / str produced by pythonize) become
  the inductive type BValue; Python floats are embedded as rationals, since
  the program only ever stores them and compares them with 0.
* Fallible code (Python KeyError) returns Option.
* Python regular expressions are embedded as the inductive type Rx with a
  Brzozowski-derivative matcher, following Python semantics: the dot
  metacharacter matches any character except the newline, the dollar anchor
  of a compiled wildcard pattern matches at the end of the input and also
  just before a newline that ends the input, and re.search accepts a match
  at any start position.
-/

namespace ScripTrans

/-- A typed Browscap field value, as produced by BrowscapCache.pythonize:
Python bool, int, float (embedded as a rational) or str. -/
inductive BValue where
  | VBool (b : Bool)
  | VInt (n : Int)
  | VFloat (q : Rat)
  | VStr (s : String)
deriving DecidableEq, Repr

/-- A Browscap data row: mapping from (lower-cased) field name to typed
value, in insertion order, mirroring the Python dict. -/
abbrev PyRow := List (String × BValue)

/-- A raw CSV data row as handed over by csv.DictReader: column name to raw
string value. -/
abbrev RawRow := List (String × String)

/-- Python dict access d[k]: the value at the first matching key, none when
the key is absent (Python raises KeyError there). -/
def dget (row : List (String × BValue)) (k : String) : Option BValue :=
  match row with
  | [] => none
  | (k', v) :: rest => if k' = k then some v else dget rest k

/-- Python whitespace characters recognized by the regex class backslash-s
(ASCII range). -/
def wsChars : List Char := [' ', '\t', '\n', '\r', '\x0b', '\x0c']

/-- Whether a character is whitespace in the sense of the regex class
backslash-s. -/
def isWS (c : Char) : Bool := wsChars.contains c

/-- Numeric value of a digit string. -/
def digitsToNat (ds : List Char) : Nat :=
  ds.foldl (fun acc c => acc * 10 + (c.toNat - 48)) 0

/-- Modelled from the Python builtin int(str): strips surrounding
whitespace, accepts an optional sign followed by at least one digit, fails
(ValueError) otherwise.  Simplified model: underscore digit separators are
not accepted; no claim depends on them. -/
def pyParseInt (s : String) : Option Int :=
  let t := ((s.data.dropWhile isWS).reverse.dropWhile isWS).reverse
  match t with
  | '-' :: ds => if ds ≠ [] ∧ ds.all Char.isDigit then some (-(digitsToNat ds : Int)) else none
  | '+' :: ds => if ds ≠ [] ∧ ds.all Char.isDigit then some (digitsToNat ds : Int) else none
  | ds => if ds ≠ [] ∧ ds.all Char.isDigit then some (digitsToNat ds : Int) else none

/-- Modelled from the Python builtin float(str): optional sign, digits with
an optional fractional part.  Simplified model: exponent notation and the
inf/nan spellings are not accepted; no claim depends on them. -/
def pyParseFloat (s : String) : Option Rat :=
  let t := ((s.data.dropWhile isWS).reverse.dropWhile isWS).reverse
  let core : List Char → Option Rat := fun ds =>
    let ip := ds.takeWhile Char.isDigit
    match ds.drop ip.length with
    | [] => if ip ≠ [] then some (digitsToNat ip : Rat) else none
    | '.' :: fs =>
      if fs.all Char.isDigit ∧ (ip ≠ [] ∨ fs ≠ []) then
        some ((digitsToNat ip : Rat) + (digitsToNat fs : Rat) / ((10 : Rat) ^ fs.length))
      else none
    | _ => none
  match t with
  | '-' :: ds => (core ds).map (fun q => -q)
  | '+' :: ds => core ds
  | ds => core ds

/-- Python str.lower on the ASCII strings this program handles:
per-character lower casing. -/
def strLower (s : String) : String :=
  ⟨s.data.map Char.toLower⟩

/-- The integer-typed Browscap fields of BrowscapCache.pythonize
(lower-cased). -/
def intFields : List String := ["majorver", "browser_bits", "platform_bits", "minorver"]

/-- The float-typed Browscap fields of BrowscapCache.pythonize
(lower-cased). -/
def floatFields : List String :=
  ["cssversion", "aolversion", "version", "renderingengine_version", "platform_version"]

/-- BrowscapCache.pythonize: lower-case every column name; turn the literal
strings true/false (case-insensitive) into booleans; parse the integer
fields as int and the float fields as float, substituting 0 on a parse
failure; leave every other value a string. -/
def pythonize (line : RawRow) : PyRow :=
  line.map (fun fv =>
    let featL := strLower fv.1
    let valL := strLower fv.2
    let value : BValue :=
      if valL = "true" then .VBool true
      else if valL = "false" then .VBool false
      else if featL ∈ intFields then .VInt ((pyParseInt fv.2).getD 0)
      else if featL ∈ floatFields then .VFloat ((pyParseFloat fv.2).getD 0)
      else .VStr fv.2
    (featL, value))

/-- Python equality test value == 0: true for int 0, float 0.0 and the
boolean False (False == 0 holds in Python); false for every string. -/
def pyEqZero : BValue → Bool
  | .VInt n => n = 0
  | .VFloat q => q = 0
  | .VBool b => b = false
  | .VStr _ => false

/-- The per-field body of BrowscapCache.replace_defaults: substitute the
same field of the defaults row when the value is the string default or the
empty string, or when the value equals 0 and the field is one of the
bits/minorver fields or one of the float-typed fields.  The source compares
the feature name against the non-lower-cased literal MinorVer (all keys are
lower-cased), which is kept as written.  A failed defaults lookup is a
Python KeyError, modelled as none. -/
def replaceDefaultsField (defaults : PyRow) (feature : String) (v : BValue) : Option BValue := do
  let v1 ← if v = .VStr "default" ∨ v = .VStr "" then dget defaults feature else pure v
  let v2 ←
    if (feature = "browser_bits" ∨ feature = "platform_bits" ∨ feature = "MinorVer")
        ∧ pyEqZero v1 then dget defaults feature
    else pure v1
  let v3 ←
    if (feature = "cssversion" ∨ feature = "aolversion" ∨ feature = "version"
        ∨ feature = "renderingengine_version" ∨ feature = "platform_version")
        ∧ pyEqZero v2 then dget defaults feature
    else pure v2
  pure v3

/-- BrowscapCache.replace_defaults: rebuild the row with every field
resolved against the defaults row; none when any lookup raises KeyError. -/
def replace_defaults (line defaults : PyRow) : Option PyRow :=
  line.mapM (fun fv => (replaceDefaultsField defaults fv.1 fv.2).map (fun v => (fv.1, v)))

/-- The row-reading loop of BrowscapCache.init (lines 125-136): pythonize
each row; discard a row whose parent is the empty string; a row whose
parent is DefaultProperties becomes the new defaults and is not emitted;
every other row is emitted, in order, after default resolution.  A missing
parent key or a failed defaults lookup is a KeyError aborting the load. -/
def loadRows : List RawRow → PyRow → Option (List PyRow)
  | [], _ => some []
  | raw :: rest, defaults =>
    let line := pythonize raw
    match dget line "parent" with
    | none => none
    | some pv =>
      if pv = .VStr "" then loadRows rest defaults
      else if pv = .VStr "DefaultProperties" then loadRows rest line
      else do
        let r ← replace_defaults line defaults
        let rs ← loadRows rest defaults
        pure (r :: rs)

/-- The dataset load: the loop starts with the empty dict as the active
defaults (source line 125). -/
def browscapLoad (rows : List RawRow) : Option (List PyRow) :=
  loadRows rows []

/-! ## Regular expressions

The regular expressions the program builds (from wildcard patterns) or
hard-codes (Fast tier and Analytic classifier) use only literals, the dot,
the whitespace and digit classes, concatenation, alternation and the star
(the non-greedy star of the source is equivalent to the greedy one for the
boolean match results the program consumes).  They are embedded as the
inductive Rx with a Brzozowski-derivative matcher, which is structurally
recursive and hence evaluable by the kernel. -/

/-- Abstract syntax of the regular expressions used by the program.  dot
is the Python dot (any character except the newline); anyc matches any
character whatsoever and is used only to embed the arbitrary prefix and
suffix that re.search allows around a match. -/
inductive Rx where
  | nul
  | eps
  | ch (c : Char)
  | dot
  | anyc
  | wsp
  | dig
  | seq (a b : Rx)
  | alt (a b : Rx)
  | star (a : Rx)
deriving DecidableEq, Repr

namespace Rx

/-- Whether the empty string is in the language. -/
def nullable : Rx → Bool
  | nul => false
  | eps => true
  | ch _ => false
  | dot => false
  | anyc => false
  | wsp => false
  | dig => false
  | seq a b => a.nullable && b.nullable
  | alt a b => a.nullable || b.nullable
  | star _ => true

/-- Smart sequencing: prunes the empty language and the empty string. -/
def seqS : Rx → Rx → Rx
  | nul, _ => nul
  | eps, b => b
  | a, b =>
    match b with
    | nul => nul
    | eps => a
    | b => seq a b

/-- Smart alternation: prunes the empty language. -/
def altS : Rx → Rx → Rx
  | nul, b => b
  | a, b =>
    match b with
    | nul => a
    | b => alt a b

/-- Brzozowski derivative with respect to one character. -/
def deriv : Rx → Char → Rx
  | nul, _ => nul
  | eps, _ => nul
  | ch c, d => if c = d then eps else nul
  | dot, d => if d = '\n' then nul else eps
  | anyc, _ => eps
  | wsp, d => if isWS d then eps else nul
  | dig, d => if d.isDigit then eps else nul
  | seq a b, d => if a.nullable then altS (seqS (a.deriv d) b) (b.deriv d) else seqS (a.deriv d) b
  | alt a b, d => altS (a.deriv d) (b.deriv d)
  | star a, d => seqS (a.deriv d) (star a)

/-- Whether the whole string is in the language (re.fullmatch). -/
def rxMatch (r : Rx) : List Char → Bool
  | [] => r.nullable
  | c :: s => rxMatch (r.deriv c) s

/-- The literal regular expression of a string. -/
def rstr : List Char → Rx
  | [] => eps
  | c :: cs => seq (ch c) (rstr cs)

/-- Concatenation of a list of regular expressions. -/
def rseq : List Rx → Rx
  | [] => eps
  | [r] => r
  | r :: rs => seq r (rseq rs)

/-- The optional group (X|) of the source regexes: X or the empty string
(alternatives tried in this order, which is irrelevant for a boolean
result). -/
def opt (r : Rx) : Rx := alt r eps

/-- The group (backslash-s|) of the source regexes: one whitespace
character or nothing. -/
def optWs : Rx := opt wsp

/-- One or more digits (backslash d plus). -/
def digitsPlus : Rx := seq dig (star dig)

end Rx

open Rx in
/-- Python re.search as used on the unanchored hard-coded regexes: some
contiguous run of the input matches the expression; the run may start and
end anywhere in the input (also across newlines), hence the anyc stars
around the expression. -/
def rxSearch (r : Rx) (s : List Char) : Bool :=
  rxMatch (.seq (.star .anyc) (.seq r (.star .anyc))) s

/-! ## The wildcard pattern compiler (BrowscapCache.uaPattern2re)

The source first applies Python re.escape to the wildcard pattern, wraps
the result in the caret and dollar anchors, then rewrites the two escaped
wildcards: backslash-question becomes dot, backslash-star becomes
dot-star-question. -/

/-- The characters escaped by Python re.escape (Python 3.7 and later). -/
def reSpecialChars : List Char :=
  ['(', ')', '[', ']', '{', '}', '?', '*', '+', '-', '|', '^', '$', '\\',
   '.', '&', '~', '#', ' ', '\t', '\n', '\r', '\x0b', '\x0c']

/-- Python re.escape on one character. -/
def escChar (c : Char) : List Char :=
  if c ∈ reSpecialChars then ['\\', c] else [c]

/-- Python re.escape on a string. -/
def reEscape (s : List Char) : List Char :=
  s.flatMap escChar

/-- Python str.replace for a two-character needle: replaces every
occurrence, scanning left to right without overlap. -/
def replace2 (a b : Char) (rep : List Char) : List Char → List Char
  | [] => []
  | [c] => [c]
  | c :: d :: rest =>
    if c = a ∧ d = b then rep ++ replace2 a b rep rest
    else c :: replace2 a b rep (d :: rest)

/-- BrowscapCache.uaPattern2re: escape the wildcard pattern, anchor it at
both ends, then rewrite the escaped question mark to a dot and the escaped
star to dot-star-question. -/
def uaPattern2re (p : String) : List Char :=
  replace2 '\\' '*' ['.', '*', '?']
    (replace2 '\\' '?' ['.'] ('^' :: reEscape p.data ++ ['$']))

open Rx in
/-- Interpreter for the body (between the anchors) of a regex string
produced by uaPattern2re: an escaped character is a literal, the
dot-star-question triple is the unrestricted star, a bare dot matches one
character, anything else is a literal.  The fuel argument exists only to
make the recursion structural; every step consumes at least one character
and one unit of fuel, so any fuel at least the length of the input
(parseBody below passes exactly the length) yields the natural
recursion. -/
def parseBodyF : Nat → List Char → Rx
  | 0, _ => eps
  | _ + 1, [] => eps
  | fuel + 1, c :: rest =>
    if c = '\\' then
      match rest with
      | [] => eps
      | d :: rest2 => seq (ch d) (parseBodyF fuel rest2)
    else if c = '.' then
      match rest with
      | [] => seq dot eps
      | [d] => seq dot (parseBodyF fuel [d])
      | d :: e :: rest2 =>
        if d = '*' ∧ e = '?' then seq (star dot) (parseBodyF fuel rest2)
        else seq dot (parseBodyF fuel (d :: e :: rest2))
    else seq (ch c) (parseBodyF fuel rest)

/-- The regex-string body interpreter at adequate fuel. -/
def parseBody (l : List Char) : Rx := parseBodyF l.length l

/-- Python re.search on a regex of the shape produced by uaPattern2re: the
leading caret pins the match to position zero; the trailing dollar accepts
the end of the input and also the position just before a newline that ends
the input.  Searching is therefore matching the body between the anchors
against the whole input, or against the input less one trailing
newline. -/
def reSearchAnchored (re : List Char) (ua : String) : Bool :=
  Rx.rxMatch (parseBody ((re.drop 1).dropLast)) ua.data
    || (ua.data.getLast? = some '\n'
      && Rx.rxMatch (parseBody ((re.drop 1).dropLast)) ua.data.dropLast)

/-! ## Cache tiers (Heavy / Slow / Medium)

The matchers read three fields of each cached row: propertyname (the
wildcard pattern), browser and majorver; the remaining properties are
carried along opaquely.  A loaded dataset supplies every column for every
row, so the fields are total here. -/

/-- A normalized Browscap row as consumed by the cache builders and
matchers. -/
structure CacheRow where
  propertyname : String
  browser : String
  majorver : Int
  props : List (String × BValue) := []
deriving DecidableEq, Repr

/-- BrowscapCache.initCacheHeavy: precompile every row's pattern, in file
order. -/
def initCacheHeavy (rows : List CacheRow) : List (List Char × CacheRow) :=
  rows.map (fun r => (uaPattern2re r.propertyname, r))

/-- The scanning loop shared by idBrowserHeavy and idBrowserMedium: return
the row of the first precompiled expression that matches, none when none
does. -/
def scanPairs : List (List Char × CacheRow) → String → Option CacheRow
  | [], _ => none
  | p :: rest, ua => if reSearchAnchored p.1 ua then some p.2 else scanPairs rest ua

/-- BrowscapCache.idBrowserHeavy: scan the precompiled Heavy cache. -/
def idBrowserHeavy (rows : List CacheRow) (ua : String) : Option CacheRow :=
  scanPairs (initCacheHeavy rows) ua

/-- BrowscapCache.idBrowserSlow: scan the rows in file order, recompiling
each row's pattern per call. -/
def idBrowserSlow : List CacheRow → String → Option CacheRow
  | [], _ => none
  | r :: rest, ua =>
    if reSearchAnchored (uaPattern2re r.propertyname) ua then some r
    else idBrowserSlow rest ua

/-- The curated browser list of BrowscapCache.initCacheMedium. -/
def browserList : List String := ["Chrome", "Safari", "IE", "Opera", "Firefox"]

/-- The recency window of BrowscapCache.initCacheMedium. -/
def deltaVer : Int := 6

/-- Python dict assignment d[k] = v on an association list: overwrite the
first occurrence in place, otherwise append. -/
def dictSet (k : String) (v : Int) : List (String × Int) → List (String × Int)
  | [] => [(k, v)]
  | (k', v') :: rest => if k' = k then (k, v) :: rest else (k', v') :: dictSet k v rest

/-- Python dict access on the string-to-int dict of initCacheMedium. -/
def dgetI (m : List (String × Int)) (k : String) : Option Int :=
  match m with
  | [] => none
  | (k', v) :: rest => if k' = k then some v else dgetI rest k

/-- First pass of BrowscapCache.initCacheMedium: per curated browser, the
maximum majorver across the whole dataset. -/
def maxVerPass (rows : List CacheRow) : List (String × Int) :=
  rows.foldl
    (fun m r =>
      if r.browser ∈ browserList then
        match dgetI m r.browser with
        | some mv => if mv < r.majorver then dictSet r.browser r.majorver m else m
        | none => dictSet r.browser r.majorver m
      else m)
    []

/-- Second pass of BrowscapCache.initCacheMedium: keep, in original
relative order, the rows of curated browsers whose majorver is within the
recency window of that browser's maximum, precompiling each pattern.  The
maxVer lookup cannot raise: the first pass visited the same rows.  -/
def initCacheMedium (rows : List CacheRow) : List (List Char × CacheRow) :=
  let maxVer := maxVerPass rows
  rows.filterMap (fun r =>
    if r.browser ∈ browserList then
      match dgetI maxVer r.browser with
      | some mv =>
        if mv - r.majorver < deltaVer then some (uaPattern2re r.propertyname, r) else none
      | none => none
    else none)

/-- BrowscapCache.idBrowserMedium: scan the precompiled Medium cache. -/
def idBrowserMedium (rows : List CacheRow) (ua : String) : Option CacheRow :=
  scanPairs (initCacheMedium rows) ua

/-- The Medium tier's row subset, without the compiled expressions. -/
def mediumRows (rows : List CacheRow) : List CacheRow :=
  let maxVer := maxVerPass rows
  rows.filterMap (fun r =>
    if r.browser ∈ browserList then
      match dgetI maxVer r.browser with
      | some mv => if mv - r.majorver < deltaVer then some r else none
      | none => none
    else none)

/-! ## Fast tier (BrowscapCache.initCacheFast / idBrowserFastAndDirty)

Each hand-authored regex of the source is transcribed into Rx; the
original pattern text is quoted above each entry. -/

open Rx in
/-- Mozilla/5 backslash .0( backslash s|) backslash (.* backslash ).*AppleWebKit/.* backslash (KHTML.*like backslash sGecko.* backslash )( backslash s|)(Chrome|.*CriOS|.*CrMo)/( backslash d+ backslash .|).* -/
def chromeRe : Rx :=
  rseq [rstr "Mozilla/5.0".data, optWs, ch '(', star dot, ch ')', star dot,
    rstr "AppleWebKit/".data, star dot, ch '(', rstr "KHTML".data, star dot,
    rstr "like".data, wsp, rstr "Gecko".data, star dot, ch ')', optWs,
    alt (rstr "Chrome".data) (alt (seq (star dot) (rstr "CriOS".data)) (seq (star dot) (rstr "CrMo".data))),
    ch '/', opt (seq digitsPlus (ch '.')), star dot]

open Rx in
/-- .*(UCBrowser|UCWEB).* -/
def ucRe : Rx :=
  rseq [star dot, alt (rstr "UCBrowser".data) (rstr "UCWEB".data), star dot]

open Rx in
/-- .*Opera.* -/
def operaRe : Rx := rseq [star dot, rstr "Opera".data, star dot]

open Rx in
/-- Mozilla/( backslash d backslash .0| backslash .*).* backslash (.*MSIE backslash s backslash d+ backslash .( backslash d+|).* -/
def ieRe : Rx :=
  rseq [rstr "Mozilla/".data, alt (rseq [dig, ch '.', ch '0']) (star (ch '.')), star dot,
    ch '(', star dot, rstr "MSIE".data, wsp, digitsPlus, ch '.', opt digitsPlus, star dot]

open Rx in
/-- .*Safari.* -/
def safari1Re : Rx := rseq [star dot, rstr "Safari".data, star dot]

open Rx in
/-- Mozilla/5 backslash .0( backslash s|) backslash (.*Mac backslash sOS backslash sX.* backslash ).*AppleWebKit/.* -/
def safari2Re : Rx :=
  rseq [rstr "Mozilla/5.0".data, optWs, ch '(', star dot, rstr "Mac".data, wsp,
    rstr "OS".data, wsp, rstr "X".data, star dot, ch ')', star dot,
    rstr "AppleWebKit/".data, star dot]

open Rx in
/-- Mozilla/ backslash d backslash .0 backslash s backslash (.* backslash ).*Gecko.*(Firefox/ backslash d+ backslash . backslash d+.*|) -/
def firefoxRe : Rx :=
  rseq [rstr "Mozilla/".data, dig, rstr ".0".data, wsp, ch '(', star dot, ch ')', star dot,
    rstr "Gecko".data, star dot,
    opt (rseq [rstr "Firefox/".data, digitsPlus, ch '.', digitsPlus, star dot])]

/-- BrowscapCache.initCacheFast: the fixed, ordered label/regex list. -/
def rePrecompiledFast : List (String × Rx) :=
  [("Chrome", chromeRe), ("UC Browser", ucRe), ("Opera", operaRe), ("IE", ieRe),
   ("Safari", safari1Re), ("Safari", safari2Re), ("Firefox", firefoxRe)]

/-- BrowscapCache.idBrowserFastAndDirty: the label of the first rule whose
regex matches somewhere in the UA, or the Unknows sentinel (sic, as in the
source). -/
def idBrowserFastAndDirty (ua : String) : String :=
  match rePrecompiledFast.find? (fun br => rxSearch br.2 ua.data) with
  | some br => br.1
  | none => "Unknows"

/-! ## Analytic classifier (BrowscapCache.idBrowserAnalytic)

The structural pattern ((Mozilla|Opera|UCWEB)/ backslash d+ backslash
.d+)( backslash s|) backslash (([^ backslash )]*) backslash )(.*) is
deterministic for a backtracking engine: at each candidate start position
the leading token alternatives have distinct first letters, the greedy
digit runs are maximal, the optional whitespace succeeds only when the
open parenthesis follows, and the body group stops at the first closing
parenthesis.  It is transcribed as a scan over start positions, leftmost
first, exactly re.search's strategy. -/

/-- Match the group ((Mozilla|Opera|UCWEB)/digits.digits) at the very start
of the input; returns the group's text and the rest of the input. -/
def parseLead (s : List Char) : Option (List Char × List Char) :=
  let tok :=
    if "Mozilla/".data.isPrefixOf s then some "Mozilla/".data
    else if "Opera/".data.isPrefixOf s then some "Opera/".data
    else if "UCWEB/".data.isPrefixOf s then some "UCWEB/".data
    else none
  match tok with
  | none => none
  | some t =>
    let s1 := s.drop t.length
    let d1 := s1.takeWhile Char.isDigit
    if d1.isEmpty then none
    else
      match s1.drop d1.length with
      | '.' :: s3 =>
        let d2 := s3.takeWhile Char.isDigit
        if d2.isEmpty then none
        else some (t ++ d1 ++ '.' :: d2, s3.drop d2.length)
      | _ => none

/-- Match ( backslash s|) backslash (([^ backslash )]*) backslash )(.*)
immediately after the leading group: optional single whitespace, an open
parenthesis, the body up to the first closing parenthesis (the negated
class crosses newlines), the close parenthesis; the tail group is the
greedy dot-star, which stops at a newline.  Returns (body, tail). -/
def parseParen (s : List Char) : Option (List Char × List Char) :=
  let afterOpen : Option (List Char) :=
    match s with
    | [] => none
    | c :: rest =>
      if isWS c then
        match rest with
        | '(' :: r2 => some r2
        | _ => none
      else if c = '(' then some rest
      else none
  match afterOpen with
  | none => none
  | some r2 =>
    let body := r2.takeWhile (fun c => c ≠ ')')
    match r2.drop body.length with
    | ')' :: tail => some (body, tail.takeWhile (fun c => c ≠ '\n'))
    | _ => none

/-- Attempt the whole structural pattern at one start position. -/
def parseUAAt (s : List Char) : Option (List Char × List Char × List Char) := do
  let hr ← parseLead s
  let bt ← parseParen hr.2
  pure (hr.1, bt.1, bt.2)

/-- re.search of the structural pattern: try every start position, leftmost
first; groups 1 (head), 4 (body) and 5 (tail). -/
def parseUA : List Char → Option (List Char × List Char × List Char)
  | [] => none
  | c :: s =>
    match parseUAAt (c :: s) with
    | some r => some r
    | none => parseUA s

/-- Per-character lower casing, modelling Python str.lower on the ASCII
strings involved. -/
def lowerL (s : List Char) : List Char := s.map Char.toLower

open Rx in
/-- The browser-determination cascade of idBrowserAnalytic (source lines
167-188), over the lowered tail, body and head. -/
def analyticBrowser (headL bodL tailL : List Char) : String :=
  if rxSearch (alt (rstr "opera".data) (rstr "opr".data)) tailL
      || rxSearch (rstr "opera".data) headL then "Opera"
  else if rxSearch (rstr "edge".data) tailL then "Edge"
  else if rxSearch (rstr "fxios".data) tailL then "Firefox"
  else if rxSearch (rstr "ucbrowser".data) tailL then "UC Browser"
  else if rxSearch (rstr "msie".data) bodL then "IE"
  else if rxSearch (rstr "chromium".data) tailL then "Chromium"
  else if rxSearch (alt (rstr "chrome".data) (alt (rstr "crios".data) (rstr "crmo".data))) tailL
    then "Chrome"
  else if rxSearch (rstr "safari".data) tailL then "Safari"
  else if rxSearch (rseq [rstr "windows".data, star dot, rstr "trident".data]) bodL then "IE"
  else if rxSearch (rstr "firefox".data) tailL then "Firefox"
  else if rxSearch (rstr "gecko".data) tailL then "Firefox"
  else "Unknown"

open Rx in
/-- The platform-determination cascade of idBrowserAnalytic (source lines
190-219) over the lowered body; the android branch also overrides a Safari
browser to Android. -/
def analyticPlatform (browser : String) (bodL : List Char) : String × String :=
  if rxSearch (rstr "android".data) bodL then
    (if browser = "Safari" then "Android" else browser, "Android")
  else if rxSearch (rseq [rstr "iphone".data, wsp, rstr "os".data]) bodL then (browser, "iOS")
  else if rxSearch (rstr "ipad".data) bodL then (browser, "iOS")
  else if rxSearch (rstr "cros".data) bodL then (browser, "ChromeOS")
  else if rxSearch (rseq [rstr "windows".data, wsp, rstr "nt".data, wsp, rstr "5".data]) bodL
    then (browser, "WinXP")
  else if rxSearch (rseq [rstr "windows".data, wsp, rstr "nt".data, wsp, rstr "6".data, ch '.', rstr "0".data]) bodL
    then (browser, "WinVista")
  else if rxSearch (rseq [rstr "windows".data, wsp, rstr "nt".data, wsp, rstr "6".data, ch '.', rstr "1".data]) bodL
    then (browser, "Win7")
  else if rxSearch (rseq [rstr "windows".data, wsp, rstr "nt".data, wsp, rstr "6".data, ch '.', rstr "2".data]) bodL
    then (browser, "Win8")
  else if rxSearch (rseq [rstr "windows".data, wsp, rstr "nt".data, wsp, rstr "6".data, ch '.', rstr "3".data]) bodL
    then (browser, "Win8.1")
  else if rxSearch (rseq [rstr "windows".data, wsp, rstr "nt".data, wsp, rstr "10".data]) bodL
    then (browser, "Win10")
  else if rxSearch (rstr "windows".data) bodL then (browser, "Windows")
  else if rxSearch (rseq [rstr "mac".data, wsp, rstr "os".data, wsp, rstr "x".data]) bodL
    then (browser, "MacOSX")
  else if rxSearch (rstr "ubuntu".data) bodL then (browser, "Ubuntu")
  else if rxSearch (rstr "linux".data) bodL then (browser, "Linux")
  else (browser, "Unknown")

open Rx in
/-- The social-app token alternation of the Facebook override, searched
case-sensitively on the raw UA. -/
def facebookRe : Rx :=
  [rstr "facebookexternalhit".data, rstr "FBAN".data, rstr "FBAV".data, rstr "FBBV".data,
   rstr "FBRV".data, rstr "FBDV".data, rstr "FBSN".data, rstr "FBSV".data,
   rstr "FBSS".data, rstr "FBCR".data, rstr "FBIOS".data].foldr alt nul

/-- The automation/bot substrings of the final override of
idBrowserAnalytic, in source order. -/
def botWords : List String :=
  ["bot", "spider", "crawl", "curl", "wget", "python", "phantomjs"]

/-- The automation/bot token alternation of the final override, searched on
the lowered UA. -/
def botRe : Rx :=
  (botWords.map (fun w => Rx.rstr w.data)).foldr Rx.alt Rx.nul

open Rx in
/-- BrowscapCache.idBrowserAnalytic: structural parse, browser cascade,
platform cascade, then the three unconditional overrides (Safari/darwin,
Facebook, Bot) in source order. -/
def idBrowserAnalytic (ua : String) : String × String :=
  let bp0 : String × String :=
    match parseUA ua.data with
    | none => ("Unknown", "Unknown")
    | some hbt =>
      let headL := lowerL hbt.1
      let bodL := lowerL hbt.2.1
      let tailL := lowerL hbt.2.2
      analyticPlatform (analyticBrowser headL bodL tailL) bodL
  let uaL := lowerL ua.data
  let bp1 :=
    if rxSearch (rseq [rstr "safari".data, star dot, rstr "darwin".data]) uaL
    then ("Safari", "iOS") else bp0
  let bp2 := if rxSearch facebookRe ua.data then ("Facebook", bp1.2) else bp1
  if rxSearch botRe uaL then ("Bot", "") else bp2

/-! ## Dataset loader and version negotiator (BrowscapCache.init, steps 0-3)

The file-system and network effects are embedded as values: the local file
before the run (none when absent), the remote version answer, and the
remote file; the result is the local file after the run together with the
number of downloads performed.  A download writes the remote contents
wholesale (downloadCSVFile opens the local path in mode wb and writes the
whole response). -/

/-- A local or remote Browscap CSV file: the version marker parsed from
its second line (none when unparseable, which the source logs and treats
as version 0) and its data rows. -/
structure CsvFile where
  version : Option Int
  rows : List RawRow
deriving DecidableEq, Repr

/-- Steps 0-3 of BrowscapCache.init: download when no local file exists;
read the local version (0 when unparseable); fetch the remote version;
download again, overwriting wholesale, when the versions differ.  Returns
the final local file and the number of downloads performed. -/
def loaderRun (localFile : Option CsvFile) (remoteVersion : Int) (remoteFile : CsvFile) :
    CsvFile × Nat :=
  let fd : CsvFile × Nat :=
    match localFile with
    | none => (remoteFile, 1)
    | some f => (f, 0)
  let localVersion : Int := fd.1.version.getD 0
  if remoteVersion ≠ localVersion then (remoteFile, fd.2 + 1) else fd

/-! ## Spec-side definitions

The following definitions are written from the specification's words, for
comparison with the source-derived definitions above (refinement claims
C3, C5, C6); theorems relate each to its code counterpart. -/

/-- Spec-side wildcard matching exactly as claim C5 states it: a question
mark matches exactly one arbitrary character, a star matches zero or more
arbitrary characters, every other character matches only itself; the whole
pattern must cover the whole input.  The compiled patterns of the program
deviate from this on the newline character (see wildMatchNL). -/
def wildMatch : List Char → List Char → Bool
  | [], s => s.isEmpty
  | c :: p, s =>
    if c = '?' then
      match s with
      | [] => false
      | _ :: s2 => wildMatch p s2
    else if c = '*' then
      (wildMatch p s ||
        match s with
        | [] => false
        | _ :: s2 => wildMatch (c :: p) s2)
    else
      match s with
      | [] => false
      | d :: s2 => c = d && wildMatch p s2
  termination_by p s => (p.length, s.length)

/-- Amended spec-side wildcard matching: a question mark matches exactly
one character other than the newline, a star matches zero or more
characters none of which is the newline, every other character (the
newline included, when written literally in the pattern) matches only
itself; the whole pattern must cover the whole input. -/
def wildMatchNL : List Char → List Char → Bool
  | [], s => s.isEmpty
  | c :: p, s =>
    if c = '?' then
      match s with
      | [] => false
      | d :: s2 => if d = '\n' then false else wildMatchNL p s2
    else if c = '*' then
      (wildMatchNL p s ||
        match s with
        | [] => false
        | d :: s2 => if d = '\n' then false else wildMatchNL (c :: p) s2)
    else
      match s with
      | [] => false
      | d :: s2 => c = d && wildMatchNL p s2
  termination_by p s => (p.length, s.length)

open Rx in
/-- The per-character reading of a wildcard pattern as a regular
expression: dot for a question mark, unrestricted star for a star, a
literal otherwise. -/
def patRx : List Char → Rx
  | [] => eps
  | c :: p =>
    if c = '?' then seq dot (patRx p)
    else if c = '*' then seq (star dot) (patRx p)
    else seq (ch c) (patRx p)

/-- The parent value of a pythonized row. -/
def parentVal (r : PyRow) : Option BValue := dget r "parent"

/-- Whether a pythonized row is a DefaultProperties marker row. -/
def isDP (r : PyRow) : Bool := parentVal r = some (.VStr "DefaultProperties")

/-- Whether a pythonized row is an ordinary data row: its parent is
neither empty nor the DefaultProperties sentinel. -/
def isDataRow (r : PyRow) : Bool :=
  match parentVal r with
  | some v => v ≠ .VStr "" && v ≠ .VStr "DefaultProperties"
  | none => false

/-- The DefaultsGroup active after reading a prefix of rows: the most
recently seen DefaultProperties row, or the initial defaults. -/
def activeDefaults (d : PyRow) (pys : List PyRow) : PyRow :=
  pys.foldl (fun acc r => if isDP r then r else acc) d

/-- Spec-side normalization, from the spec's words: pythonize every row;
keep, in file order, exactly the ordinary data rows; resolve each kept row
against the DefaultsGroup active at the time that row was read (the most
recent DefaultProperties row among the rows before it, initially the empty
mapping). -/
def normalizeSpec (rows : List RawRow) : Option (List PyRow) :=
  let pys := rows.map pythonize
  ((pys.inits.zip pys).filterMap (fun pr =>
      if isDataRow pr.2 then some (pr.2, activeDefaults [] pr.1) else none)).mapM
    (fun rd => replace_defaults rd.1 rd.2)

/-- The per-character encoding after the first rewrite stage of
uaPattern2re (escape, then escaped-question-mark to dot). -/
def esc1 (c : Char) : List Char :=
  if c = '?' then ['.'] else escChar c

/-- The per-character regex-string encoding that the uaPattern2re pipeline
(escape, then the two wildcard rewrites) realizes: a dot for the question
mark, the dot-star-question triple for the star, and the re.escape
encoding for every other character. -/
def compChar (c : Char) : List Char :=
  if c = '?' then ['.']
  else if c = '*' then ['.', '*', '?']
  else escChar c

/-- Boolean substring test: some contiguous run of s equals w.  Used to
state the claims that speak of a UA string containing a given token. -/
def containsSub (w : List Char) : List Char → Bool
  | [] => w.isEmpty
  | c :: s => w.isPrefixOf (c :: s) || containsSub w s

/-- Language semantics of the embedded regular expressions, used to relate
the derivative matcher to the spec-side wildcard semantics and substring
conditions. -/
inductive Matches : Rx → List Char → Prop where
  | eps : Matches .eps []
  | ch (c : Char) : Matches (.ch c) [c]
  | dot {c : Char} : c ≠ '\n' → Matches .dot [c]
  | anyc (c : Char) : Matches .anyc [c]
  | wsp {c : Char} : isWS c = true → Matches .wsp [c]
  | dig {c : Char} : c.isDigit = true → Matches .dig [c]
  | seq {a b : Rx} {u v : List Char} :
      Matches a u → Matches b v → Matches (.seq a b) (u ++ v)
  | altL {a b : Rx} {s : List Char} : Matches a s → Matches (.alt a b) s
  | altR {a b : Rx} {s : List Char} : Matches b s → Matches (.alt a b) s
  | star0 {a : Rx} : Matches (.star a) []
  | starS {a : Rx} {u v : List Char} :
      Matches a u → Matches (.star a) v → Matches (.star a) (u ++ v)

/-! # Theorems -/

/-! ## Correctness of the derivative matcher against the language
semantics -/

@[simp]
theorem matches_nul_iff {s : List Char} : Matches .nul s ↔ False := by
  constructor
  · intro h; cases h
  · intro h; exact h.elim

@[simp]
theorem matches_eps_iff {s : List Char} : Matches .eps s ↔ s = [] := by
  constructor
  · intro h; cases h; rfl
  · rintro rfl; exact .eps

@[simp]
theorem matches_ch_iff {c : Char} {s : List Char} : Matches (.ch c) s ↔ s = [c] := by
  constructor
  · intro h; cases h; rfl
  · rintro rfl; exact .ch c

@[simp]
theorem matches_dot_iff {s : List Char} : Matches .dot s ↔ ∃ c, c ≠ '\n' ∧ s = [c] := by
  constructor
  · intro h; cases h with | dot hc => exact ⟨_, hc, rfl⟩
  · rintro ⟨c, hc, rfl⟩; exact .dot hc

@[simp]
theorem matches_anyc_iff {s : List Char} : Matches .anyc s ↔ ∃ c, s = [c] := by
  constructor
  · intro h; cases h with | anyc c => exact ⟨c, rfl⟩
  · rintro ⟨c, rfl⟩; exact .anyc c

@[simp]
theorem matches_wsp_iff {s : List Char} : Matches .wsp s ↔ ∃ c, isWS c = true ∧ s = [c] := by
  constructor
  · intro h; cases h with | wsp hw => exact ⟨_, hw, rfl⟩
  · rintro ⟨c, hw, rfl⟩; exact .wsp hw

@[simp]
theorem matches_dig_iff {s : List Char} : Matches .dig s ↔ ∃ c, c.isDigit = true ∧ s = [c] := by
  constructor
  · intro h; cases h with | dig hd => exact ⟨_, hd, rfl⟩
  · rintro ⟨c, hd, rfl⟩; exact .dig hd

@[simp]
theorem matches_seq_iff {a b : Rx} {s : List Char} :
    Matches (.seq a b) s ↔ ∃ u v, Matches a u ∧ Matches b v ∧ u ++ v = s := by
  constructor
  · intro h; cases h with | seq hu hv => exact ⟨_, _, hu, hv, rfl⟩
  · rintro ⟨u, v, hu, hv, rfl⟩; exact .seq hu hv

@[simp]
theorem matches_alt_iff {a b : Rx} {s : List Char} :
    Matches (.alt a b) s ↔ Matches a s ∨ Matches b s := by
  constructor
  · intro h; cases h with
    | altL h => exact Or.inl h
    | altR h => exact Or.inr h
  · rintro (h | h)
    · exact .altL h
    · exact .altR h

theorem matches_seqS_iff {a b : Rx} {s : List Char} :
    Matches (Rx.seqS a b) s ↔ Matches (.seq a b) s := by
  cases a <;> cases b <;> simp [Rx.seqS] <;> exact eq_comm

theorem matches_altS_iff {a b : Rx} {s : List Char} :
    Matches (Rx.altS a b) s ↔ Matches (.alt a b) s := by
  cases a <;> cases b <;> simp [Rx.altS]

theorem nullable_iff {r : Rx} : r.nullable = true ↔ Matches r [] := by
  induction r with
  | nul => simp [Rx.nullable]
  | eps => simp [Rx.nullable]
  | ch c => simp [Rx.nullable]
  | dot => simp [Rx.nullable]
  | anyc => simp [Rx.nullable]
  | wsp => simp [Rx.nullable]
  | dig => simp [Rx.nullable]
  | seq a b iha ihb =>
    simp only [Rx.nullable, Bool.and_eq_true, iha, ihb, matches_seq_iff]
    constructor
    · rintro ⟨ha, hb⟩; exact ⟨[], [], ha, hb, rfl⟩
    · rintro ⟨u, v, hu, hv, huv⟩
      rcases List.append_eq_nil.mp huv with ⟨rfl, rfl⟩
      exact ⟨hu, hv⟩
  | alt a b iha ihb => simp [Rx.nullable, iha, ihb]
  | star a iha => simp [Rx.nullable]; exact .star0

theorem deriv_sound {r : Rx} {c : Char} :
    ∀ {s : List Char}, Matches (r.deriv c) s → Matches r (c :: s) := by
  induction r with
  | nul => intro s h; simp [Rx.deriv] at h
  | eps => intro s h; simp [Rx.deriv] at h
  | ch c0 =>
    intro s h
    simp only [Rx.deriv] at h
    split at h
    · next heq => rcases matches_eps_iff.mp h with rfl; subst heq; exact .ch c0
    · simp at h
  | dot =>
    intro s h
    simp only [Rx.deriv] at h
    split at h
    · simp at h
    · next hnl => rcases matches_eps_iff.mp h with rfl; exact .dot hnl
  | anyc =>
    intro s h
    rcases matches_eps_iff.mp h with rfl
    exact .anyc c
  | wsp =>
    intro s h
    simp only [Rx.deriv] at h
    split at h
    · next hw => rcases matches_eps_iff.mp h with rfl; exact .wsp hw
    · simp at h
  | dig =>
    intro s h
    simp only [Rx.deriv] at h
    split at h
    · next hd => rcases matches_eps_iff.mp h with rfl; exact .dig hd
    · simp at h
  | seq a b iha ihb =>
    intro s h
    simp only [Rx.deriv] at h
    split at h
    · next hn =>
      rcases matches_alt_iff.mp (matches_altS_iff.mp h) with h | h
      · rcases matches_seq_iff.mp (matches_seqS_iff.mp h) with ⟨u, v, hu, hv, rfl⟩
        exact Matches.seq (iha hu) hv (u := c :: u)
      · have ha : Matches a [] := nullable_iff.mp hn
        exact Matches.seq ha (ihb h) (u := [])
    · next hn =>
      rcases matches_seq_iff.mp (matches_seqS_iff.mp h) with ⟨u, v, hu, hv, rfl⟩
      exact Matches.seq (iha hu) hv (u := c :: u)
  | alt a b iha ihb =>
    intro s h
    rcases matches_alt_iff.mp (matches_altS_iff.mp h) with h | h
    · exact .altL (iha h)
    · exact .altR (ihb h)
  | star a iha =>
    intro s h
    rcases matches_seq_iff.mp (matches_seqS_iff.mp h) with ⟨u, v, hu, hv, rfl⟩
    exact Matches.starS (iha hu) hv (u := c :: u)

theorem deriv_complete {r : Rx} {s : List Char} (h : Matches r s) :
    ∀ {c : Char} {t : List Char}, s = c :: t → Matches (r.deriv c) t := by
  induction h with
  | eps => intro c t h; cases h
  | ch c0 =>
    intro c t h
    cases h
    simp [Rx.deriv, matches_eps_iff]
  | dot hc0 =>
    intro c t h
    cases h
    simp [Rx.deriv, hc0, matches_eps_iff]
  | anyc c0 =>
    intro c t h
    cases h
    simp [Rx.deriv, matches_eps_iff]
  | wsp hw =>
    intro c t h
    cases h
    simp [Rx.deriv, hw, matches_eps_iff]
  | dig hd =>
    intro c t h
    cases h
    simp [Rx.deriv, hd, matches_eps_iff]
  | seq hu hv ihu ihv =>
    intro c t h
    rename_i a b u v
    simp only [Rx.deriv]
    cases u with
    | nil =>
      have hn : a.nullable = true := nullable_iff.mpr hu
      simp only [hn, if_true]
      refine matches_altS_iff.mpr (matches_alt_iff.mpr (Or.inr ?_))
      exact ihv (by simpa using h)
    | cons c0 u2 =>
      rcases h with ⟨rfl, rfl⟩
      have hstep : Matches (Rx.seqS (a.deriv c) b) (u2 ++ v) :=
        matches_seqS_iff.mpr (Matches.seq (ihu rfl) hv)
      split
      · exact matches_altS_iff.mpr (matches_alt_iff.mpr (Or.inl hstep))
      · exact hstep
  | altL h ih =>
    intro c t heq
    exact matches_altS_iff.mpr (matches_alt_iff.mpr (Or.inl (ih heq)))
  | altR h ih =>
    intro c t heq
    exact matches_altS_iff.mpr (matches_alt_iff.mpr (Or.inr (ih heq)))
  | star0 => intro c t h; cases h
  | starS hu hv ihu ihv =>
    intro c t h
    rename_i a u v
    cases u with
    | nil => exact ihv (by simpa using h)
    | cons c0 u2 =>
      rcases h with ⟨rfl, rfl⟩
      simp only [Rx.deriv]
      exact matches_seqS_iff.mpr (Matches.seq (ihu rfl) hv)

theorem rxMatch_iff : ∀ (s : List Char) (r : Rx), Rx.rxMatch r s = true ↔ Matches r s := by
  intro s
  induction s with
  | nil => intro r; exact nullable_iff
  | cons c s ih =>
    intro r
    simp only [Rx.rxMatch, ih]
    exact ⟨fun h => deriv_sound h, fun h => deriv_complete h rfl⟩

theorem star_anyc_all : ∀ (s : List Char), Matches (.star .anyc) s := by
  intro s
  induction s with
  | nil => exact .star0
  | cons c s ih => exact Matches.starS (.anyc c) ih (u := [c])

theorem star_dot_of_no_nl : ∀ {u : List Char}, (∀ c ∈ u, ¬ c = '\n') →
    Matches (.star .dot) u := by
  intro u
  induction u with
  | nil => intro _; exact .star0
  | cons c u2 ih =>
    intro h
    exact Matches.starS (.dot (h c (List.mem_cons_self _ _))) 
      (ih (fun d hd => h d (List.mem_cons_of_mem _ hd))) (u := [c])

theorem star_dot_no_nl_aux : ∀ {r : Rx} {u : List Char}, Matches r u →
    r = .star .dot → ∀ c ∈ u, ¬ c = '\n' := by
  intro r u h
  induction h with
  | eps => intro heq; simp at heq
  | ch c0 => intro heq; simp at heq
  | dot hc0 => intro heq; simp at heq
  | anyc c0 => intro heq; simp at heq
  | wsp hw => intro heq; simp at heq
  | dig hd => intro heq; simp at heq
  | seq hu hv ihu ihv => intro heq; simp at heq
  | altL h ih => intro heq; simp at heq
  | altR h ih => intro heq; simp at heq
  | star0 => intro _ c hc; simp at hc
  | starS hu hv ihu ihv =>
    intro heq c hc
    injection heq with ha
    subst ha
    rcases List.mem_append.mp hc with hc | hc
    · rcases matches_dot_iff.mp hu with ⟨d, hd, rfl⟩
      rcases List.mem_singleton.mp hc with rfl
      exact hd
    · exact ihv rfl c hc

theorem star_dot_no_nl {u : List Char} (h : Matches (.star .dot) u) :
    ∀ c ∈ u, ¬ c = '\n' :=
  star_dot_no_nl_aux h rfl

theorem matches_rstr : ∀ (w : List Char), Matches (Rx.rstr w) w := by
  intro w
  induction w with
  | nil => exact .eps
  | cons c w ih => exact Matches.seq (.ch c) ih (u := [c])

/-- A search succeeds whenever the expression matches some contiguous run
of the input. -/
theorem rxSearch_true_of {r : Rx} {u w v : List Char} (h : Matches r w) :
    rxSearch r (u ++ w ++ v) = true := by
  apply (rxMatch_iff _ _).mpr
  have : Matches (Rx.seq r (.star .anyc)) (w ++ v) := .seq h (star_anyc_all v)
  simpa [List.append_assoc] using Matches.seq (star_anyc_all u) this

/-! ## The uaPattern2re pipeline factors through a per-character encoding -/

theorem replace2_cons_of_ne {x c : Char} {rep l : List Char} (hc : c ≠ '\\') :
    replace2 '\\' x rep (c :: l) = c :: replace2 '\\' x rep l := by
  cases l with
  | nil => simp [replace2]
  | cons d l2 => simp [replace2, hc]

theorem replace2_bslash_of_head_ne {x : Char} {rep l : List Char}
    (hl : ∀ d, l.head? = some d → d ≠ x) :
    replace2 '\\' x rep ('\\' :: l) = '\\' :: replace2 '\\' x rep l := by
  cases l with
  | nil => simp [replace2]
  | cons d l2 =>
    have hd : d ≠ x := hl d rfl
    simp [replace2, hd]

theorem replace2_fire {x : Char} {rep l : List Char} :
    replace2 '\\' x rep ('\\' :: x :: l) = rep ++ replace2 '\\' x rep l := by
  simp [replace2]

theorem head_reEscape_append {p t : List Char}
    (ht : ∀ d, t.head? = some d → d ≠ '?' ∧ d ≠ '*') :
    ∀ d, (reEscape p ++ t).head? = some d → d ≠ '?' ∧ d ≠ '*' := by
  cases p with
  | nil => simpa [reEscape] using ht
  | cons c p2 =>
    intro d h
    by_cases hc : c ∈ reSpecialChars
    · rw [show reEscape (c :: p2) = ('\\' :: [c]) ++ reEscape p2 by
        simp [reEscape, escChar, hc]] at h
      simp at h
      subst h
      exact ⟨by decide, by decide⟩
    · rw [show reEscape (c :: p2) = [c] ++ reEscape p2 by
        simp [reEscape, escChar, hc]] at h
      simp at h
      subst h
      refine ⟨fun hq => hc ?_, fun hs => hc ?_⟩
      · rw [hq]; decide
      · rw [hs]; decide

theorem head_esc1_append {p t : List Char}
    (ht : ∀ d, t.head? = some d → d ≠ '*') :
    ∀ d, (p.flatMap esc1 ++ t).head? = some d → d ≠ '*' := by
  cases p with
  | nil => simpa using ht
  | cons c p2 =>
    intro d h
    by_cases hq : c = '?'
    · subst hq
      rw [show ('?' :: p2).flatMap esc1 = ['.'] ++ p2.flatMap esc1 by
        simp [esc1]] at h
      simp at h
      subst h; decide
    · by_cases hc : c ∈ reSpecialChars
      · rw [show (c :: p2).flatMap esc1 = ('\\' :: [c]) ++ p2.flatMap esc1 by
          simp [esc1, escChar, hq, hc]] at h
        simp at h
        subst h; decide
      · rw [show (c :: p2).flatMap esc1 = [c] ++ p2.flatMap esc1 by
          simp [esc1, escChar, hq, hc]] at h
        simp at h
        subst h
        intro hs; exact hc (by rw [hs]; decide)

theorem replace_q_reEscape : ∀ (p t : List Char),
    (∀ d, t.head? = some d → d ≠ '?' ∧ d ≠ '*') →
    replace2 '\\' '?' ['.'] (reEscape p ++ t)
      = p.flatMap esc1 ++ replace2 '\\' '?' ['.'] t := by
  intro p
  induction p with
  | nil => intro t ht; simp [reEscape]
  | cons c p2 ih =>
    intro t ht
    have hrest : reEscape (c :: p2) ++ t = escChar c ++ (reEscape p2 ++ t) := by
      simp [reEscape]
    rw [hrest]
    by_cases hq : c = '?'
    · subst hq
      rw [show escChar '?' = ['\\', '?'] from by decide]
      show replace2 '\\' '?' ['.'] ('\\' :: '?' :: (reEscape p2 ++ t)) = _
      rw [replace2_fire, ih t ht]
      simp [esc1]
    · by_cases hb : c = '\\'
      · subst hb
        rw [show escChar '\\' = ['\\', '\\'] from by decide]
        show replace2 '\\' '?' ['.'] ('\\' :: ('\\' :: (reEscape p2 ++ t))) = _
        rw [replace2_bslash_of_head_ne (by intro d hd; simp at hd; subst hd; decide),
          replace2_bslash_of_head_ne (fun d hd => (head_reEscape_append ht d hd).1),
          ih t ht]
        rw [List.flatMap_cons, show esc1 '\\' = ['\\', '\\'] from by decide]
        simp
      · by_cases hc : c ∈ reSpecialChars
        · rw [show escChar c = ['\\', c] from by simp [escChar, hc]]
          show replace2 '\\' '?' ['.'] ('\\' :: (c :: (reEscape p2 ++ t))) = _
          rw [replace2_bslash_of_head_ne (by rintro d hd; simp at hd; subst hd; exact hq),
            replace2_cons_of_ne hb, ih t ht]
          simp [esc1, escChar, hq, hc]
        · rw [show escChar c = [c] from by simp [escChar, hc]]
          show replace2 '\\' '?' ['.'] (c :: (reEscape p2 ++ t)) = _
          rw [replace2_cons_of_ne hb, ih t ht]
          simp [esc1, escChar, hq, hc]

theorem replace_s_esc1 : ∀ (p t : List Char),
    (∀ d, t.head? = some d → d ≠ '*') →
    replace2 '\\' '*' ['.', '*', '?'] (p.flatMap esc1 ++ t)
      = p.flatMap compChar ++ replace2 '\\' '*' ['.', '*', '?'] t := by
  intro p
  induction p with
  | nil => intro t ht; simp
  | cons c p2 ih =>
    intro t ht
    have hrest : (c :: p2).flatMap esc1 ++ t = esc1 c ++ (p2.flatMap esc1 ++ t) := by
      simp
    rw [hrest]
    by_cases hq : c = '?'
    · subst hq
      rw [show esc1 '?' = ['.'] from by decide]
      show replace2 '\\' '*' ['.', '*', '?'] ('.' :: (p2.flatMap esc1 ++ t)) = _
      rw [replace2_cons_of_ne (by decide), ih t ht]
      simp [compChar]
    · by_cases hs : c = '*'
      · subst hs
        rw [show esc1 '*' = ['\\', '*'] from by decide]
        show replace2 '\\' '*' ['.', '*', '?'] ('\\' :: '*' :: (p2.flatMap esc1 ++ t)) = _
        rw [replace2_fire, ih t ht]
        simp [compChar]
      · by_cases hb : c = '\\'
        · subst hb
          rw [show esc1 '\\' = ['\\', '\\'] from by decide]
          show replace2 '\\' '*' ['.', '*', '?'] ('\\' :: ('\\' :: (p2.flatMap esc1 ++ t))) = _
          rw [replace2_bslash_of_head_ne (by intro d hd; simp at hd; subst hd; decide),
            replace2_bslash_of_head_ne (head_esc1_append ht),
            ih t ht]
          rw [List.flatMap_cons, show compChar '\\' = ['\\', '\\'] from by decide]
          simp
        · by_cases hc : c ∈ reSpecialChars
          · rw [show esc1 c = ['\\', c] from by simp [esc1, escChar, hq, hc]]
            show replace2 '\\' '*' ['.', '*', '?'] ('\\' :: (c :: (p2.flatMap esc1 ++ t))) = _
            rw [replace2_bslash_of_head_ne (by rintro d hd; simp at hd; subst hd; exact hs),
              replace2_cons_of_ne hb, ih t ht]
            simp [compChar, esc1, escChar, hq, hs, hc]
          · rw [show esc1 c = [c] from by simp [esc1, escChar, hq, hc]]
            show replace2 '\\' '*' ['.', '*', '?'] (c :: (p2.flatMap esc1 ++ t)) = _
            rw [replace2_cons_of_ne hb, ih t ht]
            simp [compChar, esc1, escChar, hq, hs, hc]

/-- The compiled regex string of a wildcard pattern is the anchored
concatenation of the per-character encodings. -/
theorem uaPattern2re_eq (p : String) :
    uaPattern2re p = '^' :: p.data.flatMap compChar ++ ['$'] := by
  unfold uaPattern2re
  have hd : ∀ d : Char, (['$'] : List Char).head? = some d → d ≠ '?' ∧ d ≠ '*' := by
    rintro d hd
    simp at hd
    subst hd
    exact ⟨by decide, by decide⟩
  rw [show ('^' :: reEscape p.data ++ ['$']) = '^' :: (reEscape p.data ++ ['$']) from by simp,
    replace2_cons_of_ne (by decide), replace_q_reEscape p.data ['$'] hd,
    show replace2 '\\' '?' ['.'] ['$'] = ['$'] from rfl,
    show ('^' :: (p.data.flatMap esc1 ++ ['$'])) = '^' :: (p.data.flatMap esc1 ++ ['$']) from rfl,
    replace2_cons_of_ne (by decide),
    replace_s_esc1 p.data ['$'] (fun d hd2 => by simp at hd2; subst hd2; decide),
    show replace2 '\\' '*' ['.', '*', '?'] ['$'] = ['$'] from rfl]
  simp

/-! ## The parsed compiled pattern is the per-character regular
expression -/

theorem eqF_dot2 {f : Nat} {d e : Char} {l : List Char} (h : ¬(d = '*' ∧ e = '?')) :
    parseBodyF (f + 1) ('.' :: d :: e :: l) = .seq .dot (parseBodyF f (d :: e :: l)) := by
  show (if d = '*' ∧ e = '?' then Rx.seq (.star .dot) (parseBodyF f l)
    else Rx.seq .dot (parseBodyF f (d :: e :: l))) = Rx.seq .dot (parseBodyF f (d :: e :: l))
  exact if_neg h

theorem eqF_other {f : Nat} {c : Char} {l : List Char} (h1 : c ≠ '\\') (h2 : c ≠ '.') :
    parseBodyF (f + 1) (c :: l) = .seq (.ch c) (parseBodyF f l) := by
  show (if c = '\\' then
          match l with
          | [] => Rx.eps
          | d :: rest2 => Rx.seq (.ch d) (parseBodyF f rest2)
        else if c = '.' then
          match l with
          | [] => Rx.seq .dot .eps
          | [d] => Rx.seq .dot (parseBodyF f [d])
          | d :: e :: rest2 =>
            if d = '*' ∧ e = '?' then Rx.seq (.star .dot) (parseBodyF f rest2)
            else Rx.seq .dot (parseBodyF f (d :: e :: rest2))
        else Rx.seq (.ch c) (parseBodyF f l)) = Rx.seq (.ch c) (parseBodyF f l)
  rw [if_neg h1, if_neg h2]

/-- The fuel argument of parseBodyF is irrelevant as long as it covers the
input length. -/
theorem parseBodyF_irrel : ∀ (f1 : Nat) (l : List Char) (f2 : Nat),
    l.length ≤ f1 → l.length ≤ f2 → parseBodyF f1 l = parseBodyF f2 l := by
  intro f1
  induction f1 with
  | zero =>
    intro l f2 h1 _
    rw [List.length_eq_zero.mp (Nat.le_zero.mp h1)]
    cases f2 <;> rfl
  | succ f ihf =>
    intro l f2 h1 h2
    cases f2 with
    | zero =>
      rw [List.length_eq_zero.mp (Nat.le_zero.mp h2)]
      rfl
    | succ g =>
      cases l with
      | nil => rfl
      | cons c rest =>
        simp only [List.length_cons, Nat.succ_le_succ_iff] at h1 h2
        by_cases hb : c = '\\'
        · subst hb
          cases rest with
          | nil => rfl
          | cons d rest2 =>
            show Rx.seq (.ch d) (parseBodyF f rest2) = Rx.seq (.ch d) (parseBodyF g rest2)
            have hl : rest2.length ≤ f := Nat.le_trans (by simp) h1
            have hg : rest2.length ≤ g := Nat.le_trans (by simp) h2
            rw [ihf rest2 g hl hg]
        · by_cases hd : c = '.'
          · subst hd
            cases rest with
            | nil => rfl
            | cons d rest2 =>
              cases rest2 with
              | nil =>
                show Rx.seq .dot (parseBodyF f [d]) = Rx.seq .dot (parseBodyF g [d])
                have hl : [d].length ≤ f := Nat.le_trans (by simp) h1
                have hg : [d].length ≤ g := Nat.le_trans (by simp) h2
                rw [ihf [d] g hl hg]
              | cons e rest3 =>
                by_cases hde : d = '*' ∧ e = '?'
                · rcases hde with ⟨rfl, rfl⟩
                  show Rx.seq (.star .dot) (parseBodyF f rest3)
                    = Rx.seq (.star .dot) (parseBodyF g rest3)
                  have hl : rest3.length ≤ f := by
                    simp only [List.length_cons] at h1
                    omega
                  have hg : rest3.length ≤ g := by
                    simp only [List.length_cons] at h2
                    omega
                  rw [ihf rest3 g hl hg]
                · rw [eqF_dot2 hde, eqF_dot2 hde]
                  have hl : (d :: e :: rest3).length ≤ f := h1
                  have hg : (d :: e :: rest3).length ≤ g := h2
                  rw [ihf (d :: e :: rest3) g hl hg]
          · rw [eqF_other hb hd, eqF_other hb hd, ihf rest g h1 h2]

theorem parseBody_bslash {d : Char} {l : List Char} :
    parseBody ('\\' :: d :: l) = .seq (.ch d) (parseBody l) := by
  show Rx.seq (.ch d) (parseBodyF (l.length + 1) l) = Rx.seq (.ch d) (parseBodyF l.length l)
  rw [parseBodyF_irrel (l.length + 1) l l.length (Nat.le_succ _) (Nat.le_refl _)]

theorem parseBody_dot_star {l : List Char} :
    parseBody ('.' :: '*' :: '?' :: l) = .seq (.star .dot) (parseBody l) := by
  show Rx.seq (.star .dot) (parseBodyF (l.length + 2) l) = Rx.seq (.star .dot) (parseBodyF l.length l)
  rw [parseBodyF_irrel (l.length + 2) l l.length (by omega) (Nat.le_refl _)]

theorem parseBody_dot {l : List Char} (h : l.head? ≠ some '*') :
    parseBody ('.' :: l) = .seq .dot (parseBody l) := by
  cases l with
  | nil => rfl
  | cons d l2 =>
    have hd : d ≠ '*' := fun he => h (by subst he; rfl)
    cases l2 with
    | nil => rfl
    | cons e l3 =>
      show parseBodyF ((d :: e :: l3).length + 1) ('.' :: d :: e :: l3) = _
      rw [eqF_dot2 (fun hde => hd hde.1)]
      show Rx.seq .dot (parseBodyF (l3.length + 2) (d :: e :: l3)) = _
      rw [parseBodyF_irrel (l3.length + 2) (d :: e :: l3) (d :: e :: l3).length
        (by simp) (Nat.le_refl _)]
      rfl

theorem parseBody_other {c : Char} {l : List Char} (h1 : c ≠ '\\') (h2 : c ≠ '.') :
    parseBody (c :: l) = .seq (.ch c) (parseBody l) := by
  show parseBodyF (l.length + 1) (c :: l) = _
  rw [eqF_other h1 h2]
  rfl

theorem head_flatMap_compChar {p : List Char} :
    ∀ d, (p.flatMap compChar).head? = some d → d ≠ '*' := by
  cases p with
  | nil => simp
  | cons c p2 =>
    intro d h
    rw [List.flatMap_cons] at h
    by_cases hq : c = '?'
    · subst hq; rw [show compChar '?' = ['.'] from by decide] at h
      simp at h; subst h; decide
    · by_cases hs : c = '*'
      · subst hs; rw [show compChar '*' = ['.', '*', '?'] from by decide] at h
        simp at h; subst h; decide
      · by_cases hc : c ∈ reSpecialChars
        · rw [show compChar c = ['\\', c] from by simp [compChar, escChar, hq, hs, hc]] at h
          simp at h; subst h; decide
        · rw [show compChar c = [c] from by simp [compChar, escChar, hq, hs, hc]] at h
          simp at h; subst h
          exact fun he => hc (by rw [he]; decide)

theorem parseBody_flatMap : ∀ p : List Char, parseBody (p.flatMap compChar) = patRx p := by
  intro p
  induction p with
  | nil => rfl
  | cons c p2 ih =>
    rw [List.flatMap_cons]
    by_cases hq : c = '?'
    · subst hq
      rw [show compChar '?' = ['.'] from by decide]
      show parseBody ('.' :: p2.flatMap compChar) = _
      rw [parseBody_dot (fun h => head_flatMap_compChar '*' h rfl), ih]
      simp [patRx]
    · by_cases hs : c = '*'
      · subst hs
        rw [show compChar '*' = ['.', '*', '?'] from by decide]
        show parseBody ('.' :: '*' :: '?' :: p2.flatMap compChar) = _
        rw [parseBody_dot_star, ih]
        simp [patRx]
      · by_cases hc : c ∈ reSpecialChars
        · rw [show compChar c = ['\\', c] from by simp [compChar, escChar, hq, hs, hc]]
          show parseBody ('\\' :: c :: p2.flatMap compChar) = _
          rw [parseBody_bslash, ih]
          simp [patRx, hq, hs]
        · rw [show compChar c = [c] from by simp [compChar, escChar, hq, hs, hc]]
          show parseBody (c :: p2.flatMap compChar) = _
          have h1 : c ≠ '\\' := fun he => hc (by rw [he]; decide)
          have h2 : c ≠ '.' := fun he => hc (by rw [he]; decide)
          rw [parseBody_other h1 h2, ih]
          simp [patRx, hq, hs]

/-! ## The compiled pattern realizes the spec-side wildcard semantics -/

theorem matches_stardot_seq {r : Rx} {s : List Char} :
    Matches (.seq (.star .dot) r) s
      ↔ ∃ u v, u ++ v = s ∧ (∀ c ∈ u, ¬ c = '\n') ∧ Matches r v := by
  constructor
  · intro h
    rcases matches_seq_iff.mp h with ⟨u, v, hu, hv, rfl⟩
    exact ⟨u, v, rfl, star_dot_no_nl hu, hv⟩
  · rintro ⟨u, v, rfl, hnl, hv⟩
    exact matches_seq_iff.mpr ⟨u, v, star_dot_of_no_nl hnl, hv, rfl⟩

theorem wild_iff : ∀ (p s : List Char), wildMatchNL p s = true ↔ Matches (patRx p) s := by
  intro p
  induction p with
  | nil =>
    intro s
    cases s <;> simp [wildMatchNL, patRx]
  | cons c p2 ih =>
    intro s
    by_cases hq : c = '?'
    · subst hq
      cases s with
      | nil => simp [wildMatchNL, patRx]
      | cons d s2 =>
        rw [show patRx ('?' :: p2) = .seq .dot (patRx p2) from by simp [patRx]]
        by_cases hnl : d = '\n'
        · subst hnl
          rw [show wildMatchNL ('?' :: p2) ('\n' :: s2) = false from by simp [wildMatchNL]]
          simp only [Bool.false_eq_true, false_iff]
          intro h
          rcases matches_seq_iff.mp h with ⟨u, v, hu, hv, heq⟩
          rcases matches_dot_iff.mp hu with ⟨c2, hc2, rfl⟩
          simp at heq
          exact hc2 heq.1
        · rw [show wildMatchNL ('?' :: p2) (d :: s2) = wildMatchNL p2 s2 from by
            simp [wildMatchNL, hnl]]
          rw [ih]
          constructor
          · intro h
            exact matches_seq_iff.mpr ⟨[d], s2, .dot hnl, h, rfl⟩
          · intro h
            rcases matches_seq_iff.mp h with ⟨u, v, hu, hv, heq⟩
            rcases matches_dot_iff.mp hu with ⟨c2, hc2, rfl⟩
            simp at heq
            rcases heq with ⟨rfl, rfl⟩
            exact hv
    · by_cases hs : c = '*'
      · subst hs
        rw [show patRx ('*' :: p2) = .seq (.star .dot) (patRx p2) from by simp [patRx]]
        rw [matches_stardot_seq]
        induction s with
        | nil =>
          rw [show wildMatchNL ('*' :: p2) [] = wildMatchNL p2 [] from by simp [wildMatchNL]]
          rw [ih]
          constructor
          · intro h; exact ⟨[], [], rfl, by simp, h⟩
          · rintro ⟨u, v, huv, _, hv⟩
            rcases List.append_eq_nil.mp huv with ⟨rfl, rfl⟩
            exact hv
        | cons d s2 ihs =>
          rw [show wildMatchNL ('*' :: p2) (d :: s2)
              = (wildMatchNL p2 (d :: s2)
                || (if d = '\n' then false else wildMatchNL ('*' :: p2) s2)) from by
            simp [wildMatchNL]]
          by_cases hnl : d = '\n'
          · subst hnl
            rw [if_pos rfl, Bool.or_false, ih]
            constructor
            · intro h; exact ⟨[], '\n' :: s2, rfl, by simp, h⟩
            · rintro ⟨u, v, huv, hnlu, hv⟩
              cases u with
              | nil =>
                simp only [List.nil_append] at huv
                subst huv
                exact hv
              | cons e u2 =>
                rcases huv with ⟨rfl, rfl⟩
                exact absurd rfl (hnlu _ (List.mem_cons_self _ _))
          · rw [if_neg hnl, Bool.or_eq_true, ih, ihs]
            constructor
            · rintro (h | ⟨u, v, rfl, hnlu, hv⟩)
              · exact ⟨[], d :: s2, rfl, by simp, h⟩
              · refine ⟨d :: u, v, rfl, ?_, hv⟩
                intro c hc
                rcases List.mem_cons.mp hc with rfl | hc
                · exact hnl
                · exact hnlu c hc
            · rintro ⟨u, v, huv, hnlu, hv⟩
              cases u with
              | nil =>
                left
                simp only [List.nil_append] at huv
                subst huv
                exact hv
              | cons e u2 =>
                rcases huv with ⟨rfl, rfl⟩
                right
                exact ⟨u2, v, rfl, fun c hc => hnlu c (List.mem_cons_of_mem _ hc), hv⟩
      · cases s with
        | nil => simp [wildMatchNL, patRx, hq, hs]
        | cons d s2 =>
          rw [show patRx (c :: p2) = .seq (.ch c) (patRx p2) from by simp [patRx, hq, hs]]
          simp [wildMatchNL, hq, hs, ih, List.cons_eq_append_iff]
          exact and_comm

/-- The body of a compiled wildcard pattern matches exactly per the
amended (newline-aware) wildcard semantics. -/
theorem rxMatch_patRx (p s : List Char) : Rx.rxMatch (patRx p) s = wildMatchNL p s := by
  rw [Bool.eq_iff_iff, rxMatch_iff]
  exact (wild_iff p s).symm

/-- The wildcard matching the program implements (compile with
uaPattern2re, then search the anchored expression) equals the amended
wildcard semantics on the input, or on the input less one trailing
newline (the dollar anchor's allowance). -/
theorem reSearch_wildMatchNL (p ua : String) :
    reSearchAnchored (uaPattern2re p) ua
      = (wildMatchNL p.data ua.data
        || (ua.data.getLast? = some '\n' && wildMatchNL p.data ua.data.dropLast)) := by
  unfold reSearchAnchored
  rw [uaPattern2re_eq]
  rw [show (('^' :: p.data.flatMap compChar) ++ ['$']).drop 1
      = p.data.flatMap compChar ++ ['$'] from rfl]
  rw [List.dropLast_concat, parseBody_flatMap]
  rw [rxMatch_patRx, rxMatch_patRx]

/-- A wildcard-free pattern matches exactly itself under the amended
wildcard semantics. -/
theorem wildMatchNL_no_wildcards : ∀ (p s : List Char), '?' ∉ p → '*' ∉ p →
    (wildMatchNL p s = true ↔ s = p) := by
  intro p
  induction p with
  | nil =>
    intro s _ _
    cases s <;> simp [wildMatchNL]
  | cons c p2 ih =>
    intro s hq hs
    rw [List.mem_cons] at hq hs
    push_neg at hq hs
    obtain ⟨hq1, hq2⟩ := hq
    obtain ⟨hs1, hs2⟩ := hs
    have hcq : c ≠ '?' := fun h => hq1 h.symm
    have hcs : c ≠ '*' := fun h => hs1 h.symm
    cases s with
    | nil => simp [wildMatchNL, hcq, hcs]
    | cons d s2 =>
      simp [wildMatchNL, hcq, hcs, ih s2 hq2 hs2]
      exact fun _ => eq_comm

/-- A list with last element a is its dropLast followed by a. -/
theorem getLast?_decomp : ∀ {l : List Char} {a : Char}, l.getLast? = some a →
    l = l.dropLast ++ [a] := by
  intro l
  induction l with
  | nil => intro a h; simp at h
  | cons x l2 ih =>
    intro a h
    cases l2 with
    | nil =>
      simp only [List.getLast?_singleton, Option.some.injEq] at h
      subst h
      rfl
    | cons y l3 =>
      rw [List.getLast?_cons_cons] at h
      have h2 := ih h
      calc x :: y :: l3 = x :: ((y :: l3).dropLast ++ [a]) := by rw [← h2]
        _ = (x :: y :: l3).dropLast ++ [a] := by simp

/-! ## Heavy, Slow and Medium tier relations -/

/-- The Heavy scan over precompiled pairs agrees with the per-call
recompiling Slow scan. -/
theorem heavy_slow_agree (rows : List CacheRow) (ua : String) :
    idBrowserHeavy rows ua = idBrowserSlow rows ua := by
  induction rows with
  | nil => rfl
  | cons r rest ih =>
    show (if reSearchAnchored (uaPattern2re r.propertyname) ua then some r
        else idBrowserHeavy rest ua)
      = (if reSearchAnchored (uaPattern2re r.propertyname) ua then some r
        else idBrowserSlow rest ua)
    rw [ih]

/-- The Medium precompiled cache is the Heavy precompiled cache of the
Medium tier's row subset. -/
theorem initCacheMedium_eq_heavy (rows : List CacheRow) :
    initCacheMedium rows = initCacheHeavy (mediumRows rows) := by
  show rows.filterMap (fun r =>
      if r.browser ∈ browserList then
        match dgetI (maxVerPass rows) r.browser with
        | some mv =>
          if mv - r.majorver < deltaVer then some (uaPattern2re r.propertyname, r) else none
        | none => none
      else none)
    = List.map (fun r => (uaPattern2re r.propertyname, r)) (rows.filterMap (fun r =>
      if r.browser ∈ browserList then
        match dgetI (maxVerPass rows) r.browser with
        | some mv => if mv - r.majorver < deltaVer then some r else none
        | none => none
      else none))
  rw [List.map_filterMap]
  congr 1
  funext r
  by_cases h1 : r.browser ∈ browserList
  · simp only [h1, if_true]
    cases dgetI (maxVerPass rows) r.browser with
    | none => rfl
    | some mv =>
      by_cases h2 : mv - r.majorver < deltaVer <;> simp [h2]
  · simp [h1]

/-! ## The normalization loop against the spec-side formulation -/

/-- Extending every recorded prefix by the newly read row shifts the
prefix-dependent active defaults by the effect of that row. -/
theorem specTail (q : PyRow) (pys : List PyRow) (d : PyRow) :
    ((pys.inits.map (fun t => q :: t)).zip pys).filterMap (fun pr =>
        if isDataRow pr.2 then some (pr.2, activeDefaults d pr.1) else none)
      = (pys.inits.zip pys).filterMap (fun pr =>
        if isDataRow pr.2 then some (pr.2, activeDefaults (if isDP q then q else d) pr.1)
        else none) := by
  rw [List.zip_map_left, List.filterMap_map]
  congr 1

/-- The source's row-reading loop, started at an arbitrary current
defaults row, computes the spec-side formulation: keep the data rows in
order, each resolved against the most recent DefaultProperties row among
the rows before it. -/
theorem loadRows_eq_spec : ∀ (rows : List RawRow) (d : PyRow),
    (∀ raw ∈ rows, (dget (pythonize raw) "parent").isSome) →
    loadRows rows d =
      (((rows.map pythonize).inits.zip (rows.map pythonize)).filterMap (fun pr =>
          if isDataRow pr.2 then some (pr.2, activeDefaults d pr.1) else none)).mapM
        (fun rd => replace_defaults rd.1 rd.2) := by
  intro rows
  induction rows with
  | nil => intro d _; rfl
  | cons raw rest ih =>
    intro d h
    have hp := h raw (List.mem_cons_self _ _)
    have hrest : ∀ raw2 ∈ rest, (dget (pythonize raw2) "parent").isSome :=
      fun raw2 hm => h raw2 (List.mem_cons_of_mem _ hm)
    rcases Option.isSome_iff_exists.mp hp with ⟨pv, hpv⟩
    have hR : (((raw :: rest).map pythonize).inits.zip ((raw :: rest).map pythonize))
        = ([], pythonize raw)
          :: (((rest.map pythonize).inits.map (fun t => pythonize raw :: t)).zip
            (rest.map pythonize)) := by
      rw [List.map_cons, List.inits_cons, List.zip_cons_cons]
    rw [hR, List.filterMap_cons, specTail]
    simp only [loadRows, hpv]
    by_cases h1 : pv = .VStr ""
    · have hdata : isDataRow (pythonize raw) = false := by
        simp [isDataRow, parentVal, hpv, h1]
      have hdp : isDP (pythonize raw) = false := by
        simp [isDP, parentVal, hpv, h1]
      rw [if_pos h1]
      simp only [hdata, Bool.false_eq_true, if_false, hdp]
      exact ih d hrest
    · by_cases h2 : pv = .VStr "DefaultProperties"
      · have hdata : isDataRow (pythonize raw) = false := by
          simp [isDataRow, parentVal, hpv, h2]
        have hdp : isDP (pythonize raw) = true := by
          simp [isDP, parentVal, hpv, h2]
        rw [if_neg h1, if_pos h2]
        simp only [hdata, Bool.false_eq_true, if_false, hdp, if_true]
        exact ih (pythonize raw) hrest
      · have hdata : isDataRow (pythonize raw) = true := by
          simp [isDataRow, parentVal, hpv, h1, h2]
        have hdp : isDP (pythonize raw) = false := by
          simp [isDP, parentVal, hpv, h2]
        rw [if_neg h1, if_neg h2]
        simp only [hdata, if_true, hdp, if_false]
        rw [List.mapM_cons, ih d hrest]
        rfl

/-! ## Substring decomposition and the bot override -/

theorem isPrefixOf_exists : ∀ {w s : List Char}, w.isPrefixOf s = true →
    ∃ t, w ++ t = s := by
  intro w
  induction w with
  | nil => intro s _; exact ⟨s, rfl⟩
  | cons c w2 ih =>
    intro s h
    cases s with
    | nil => simp [List.isPrefixOf] at h
    | cons d s2 =>
      simp only [List.isPrefixOf, Bool.and_eq_true, beq_iff_eq] at h
      rcases h with ⟨rfl, h2⟩
      rcases ih h2 with ⟨t, rfl⟩
      exact ⟨t, rfl⟩

theorem containsSub_decomp : ∀ {s w : List Char}, containsSub w s = true →
    ∃ u v, s = u ++ w ++ v := by
  intro s
  induction s with
  | nil =>
    intro w h
    simp only [containsSub, List.isEmpty_iff] at h
    exact ⟨[], [], by simp [h]⟩
  | cons c s2 ih =>
    intro w h
    simp only [containsSub, Bool.or_eq_true] at h
    rcases h with h | h
    · rcases isPrefixOf_exists h with ⟨t, ht⟩
      exact ⟨[], t, by simp [← ht]⟩
    · rcases ih h with ⟨u, v, rfl⟩
      exact ⟨c :: u, v, rfl⟩

/-- Containing one of the bot tokens makes the bot alternation search
succeed. -/
theorem botRe_search_of_contains {s : List Char}
    (h : botWords.any (fun w => containsSub w.data s) = true) :
    rxSearch botRe s = true := by
  rcases List.any_eq_true.mp h with ⟨w, hw, hc⟩
  obtain ⟨u, v, rfl⟩ := containsSub_decomp hc
  have hm : Matches botRe w.data := by
    simp only [botWords, List.mem_cons, List.not_mem_nil, or_false] at hw
    rcases hw with rfl | rfl | rfl | rfl | rfl | rfl | rfl
    · exact .altL (matches_rstr _)
    · exact .altR (.altL (matches_rstr _))
    · exact .altR (.altR (.altL (matches_rstr _)))
    · exact .altR (.altR (.altR (.altL (matches_rstr _))))
    · exact .altR (.altR (.altR (.altR (.altL (matches_rstr _)))))
    · exact .altR (.altR (.altR (.altR (.altR (.altL (matches_rstr _))))))
    · exact .altR (.altR (.altR (.altR (.altR (.altR (.altL (matches_rstr _)))))))
  exact rxSearch_true_of hm

/-! # Claims -/

/-- C1: for every UA string and every loaded dataset, the Heavy-tier
matcher (precompiled, scanning rows in file order) returns exactly the
same result as the Slow reference matcher (which recompiles each row's
pattern per call): the same row when some pattern matches, and no-match
(none) when none does. -/
theorem heavy_tier_equals_slow_tier (rows : List CacheRow) (ua : String) :
    idBrowserHeavy rows ua = idBrowserSlow rows ua :=
  heavy_slow_agree rows ua

/-- C2 (code bug): pythonize lower-cases every field name, but
replace_defaults compares against the non-lower-cased literal MinorVer, so
a minorver field holding 0 is never substituted from the DefaultsGroup:
with defaults carrying minorver 5, the row keeps 0 where the specification
requires 5. -/
theorem minorver_zero_not_substituted :
    replace_defaults [("minorver", .VInt 0)] [("minorver", .VInt 5)]
      = some [("minorver", .VInt 0)] := rfl

/-- C3 counterexample: the Medium tier drops curated-browser rows outside
the recency window, so the Heavy matcher restricted merely to rows of the
curated browser set can answer with an earlier row that the Medium tier
never considered: on two Chrome rows of majorver 1 and 100 with
catch-all patterns, Medium returns the majorver-100 row while
Heavy-on-curated-browsers returns the majorver-1 row. -/
theorem medium_not_heavy_on_curated_browsers :
    idBrowserMedium [⟨"*", "Chrome", 1, []⟩, ⟨"*", "Chrome", 100, []⟩] "x"
        = some ⟨"*", "Chrome", 100, []⟩ ∧
      idBrowserHeavy (([⟨"*", "Chrome", 1, []⟩, ⟨"*", "Chrome", 100, []⟩] :
          List CacheRow).filter (fun r => decide (r.browser ∈ browserList))) "x"
        = some ⟨"*", "Chrome", 1, []⟩ ∧
      (⟨"*", "Chrome", 100, []⟩ : CacheRow) ≠ ⟨"*", "Chrome", 1, []⟩ :=
  ⟨by decide, by decide, by decide⟩

/-- C3 (amended): if the Medium-tier matcher returns a match, the
Heavy-tier matcher restricted to the Medium tier's own row subset (curated
browsers within the recency window) returns the same matched row. -/
theorem medium_refines_heavy_on_medium_rows (rows : List CacheRow) (ua : String)
    (r : CacheRow) (h : idBrowserMedium rows ua = some r) :
    idBrowserHeavy (mediumRows rows) ua = some r := by
  unfold idBrowserHeavy
  rw [← initCacheMedium_eq_heavy]
  exact h

/-- Witness for the amended C3 at a concrete dataset and UA string. -/
theorem medium_refines_heavy_on_medium_rows_witness :
    idBrowserHeavy (mediumRows [⟨"*", "Chrome", 100, []⟩]) "x"
      = some ⟨"*", "Chrome", 100, []⟩ :=
  medium_refines_heavy_on_medium_rows [⟨"*", "Chrome", 100, []⟩] "x"
    ⟨"*", "Chrome", 100, []⟩ (by decide)

/-- C4 counterexample: Python's dollar anchor also matches just before a
newline that ends the input, so the compiled wildcard-free pattern abc
matches the longer input abc-newline, in which the pattern occurs as a
proper prefix; the claimed matches-only-the-pattern-itself property fails
there. -/
theorem literal_pattern_trailing_newline :
    reSearchAnchored (uaPattern2re "abc") "abc\n" = true ∧ ("abc\n" : String) ≠ "abc" :=
  ⟨by decide, by decide⟩

/-- C4 (amended): for every wildcard pattern with no question mark and no
star, the compiled anchored expression matches an input exactly when the
input equals the pattern or equals the pattern followed by one trailing
newline (the dollar anchor's allowance); in particular never as a proper
substring, prefix or suffix of any other longer input. -/
theorem literal_pattern_matches_only_itself (p ua : String)
    (hq : '?' ∉ p.data) (hs : '*' ∉ p.data) :
    (reSearchAnchored (uaPattern2re p) ua = true
      ↔ ua = p ∨ ua.data = p.data ++ ['\n']) := by
  rw [reSearch_wildMatchNL, Bool.or_eq_true, Bool.and_eq_true]
  rw [wildMatchNL_no_wildcards p.data ua.data hq hs,
    wildMatchNL_no_wildcards p.data ua.data.dropLast hq hs]
  constructor
  · rintro (h | ⟨hlast, hdrop⟩)
    · left
      cases ua
      cases p
      exact congrArg String.mk (by simpa using h)
    · right
      have hl : ua.data.getLast? = some '\n' := by simpa using hlast
      rw [getLast?_decomp hl, hdrop]
  · rintro (rfl | hd)
    · exact Or.inl rfl
    · right
      constructor
      · rw [hd]
        simp [List.getLast?_concat]
      · rw [hd, List.dropLast_concat]

/-- Witness for the amended C4: the pattern a+b.c, containing the regex
metacharacters plus and dot but no wildcard, matches itself and its
newline-terminated form. -/
theorem literal_pattern_matches_only_itself_witness :
    reSearchAnchored (uaPattern2re "a+b.c") "a+b.c" = true ∧
      reSearchAnchored (uaPattern2re "a+b.c") "a+b.c\n" = true :=
  ⟨(literal_pattern_matches_only_itself "a+b.c" "a+b.c" (by decide) (by decide)).mpr
     (Or.inl rfl),
   (literal_pattern_matches_only_itself "a+b.c" "a+b.c\n" (by decide) (by decide)).mpr
     (Or.inr (by decide))⟩

/-- C5 counterexample: the question mark compiles to the Python dot, which
does not match the newline character, so the compiled pattern consisting
of one question mark rejects the one-character newline input that the
claimed any-character semantics (wildMatch, the claim as stated) accepts. -/
theorem wildcard_question_mark_rejects_newline :
    reSearchAnchored (uaPattern2re "?") "\n" = false ∧
      wildMatch "?".data "\n".data = true := by
  constructor
  · decide
  · simp [wildMatch]

/-- C5 (amended): in a compiled pattern, a question mark matches exactly
one character other than the newline, a star matches zero or more
characters none of which is the newline, and every other character,
regex metacharacters included, matches only itself; the trailing anchor
additionally accepts one newline ending the input.  Formally: the
compiled-and-searched pattern equals the amended wildcard semantics
wildMatchNL on the input, or on the input less one trailing newline. -/
theorem compiled_pattern_wildcard_semantics (p ua : String) :
    reSearchAnchored (uaPattern2re p) ua
      = (wildMatchNL p.data ua.data
        || (ua.data.getLast? = some '\n' && wildMatchNL p.data ua.data.dropLast)) :=
  reSearch_wildMatchNL p ua

/-- C6: the normalizer, in file order, discards rows with an empty parent,
installs rows with parent DefaultProperties as the active DefaultsGroup
without emitting them, and appends every other row after default
resolution against the DefaultsGroup active when the row was read: the
source loop equals the spec-side formulation. -/
theorem normalizer_routing (rows : List RawRow)
    (h : ∀ raw ∈ rows, (dget (pythonize raw) "parent").isSome) :
    browscapLoad rows = normalizeSpec rows :=
  loadRows_eq_spec rows [] h

/-- Witness for C6 on a three-row dataset exercising all three row
kinds. -/
theorem normalizer_routing_witness :
    browscapLoad [[("Parent", ""), ("Browser", "zzz")],
        [("Parent", "DefaultProperties"), ("Browser", "DefBrowser")],
        [("Parent", "G"), ("Browser", "default")]]
      = normalizeSpec [[("Parent", ""), ("Browser", "zzz")],
        [("Parent", "DefaultProperties"), ("Browser", "DefBrowser")],
        [("Parent", "G"), ("Browser", "default")]] :=
  normalizer_routing _ (by decide)

/-- C7: given a local file, the loader downloads and wholesale-overwrites
exactly when the remote version differs from the local version: equal
versions perform no download and keep the file; different versions perform
exactly one download and replace the file with the remote one. -/
theorem loader_version_negotiation (f : CsvFile) (rv : Int) (rf : CsvFile) :
    (rv = f.version.getD 0 → loaderRun (some f) rv rf = (f, 0)) ∧
    (rv ≠ f.version.getD 0 → loaderRun (some f) rv rf = (rf, 1)) := by
  constructor
  · intro h
    simp [loaderRun, h]
  · intro h
    simp [loaderRun, h]

/-- Witness for C7 at the spec's concrete versions: 100/100 downloads
nothing, 99/100 downloads once and overwrites. -/
theorem loader_version_negotiation_witness :
    loaderRun (some ⟨some 100, []⟩) 100 ⟨some 100, []⟩ = (⟨some 100, []⟩, 0) ∧
      loaderRun (some ⟨some 99, []⟩) 100 ⟨some 100, []⟩ = (⟨some 100, []⟩, 1) :=
  ⟨(loader_version_negotiation ⟨some 100, []⟩ 100 ⟨some 100, []⟩).1 (by decide),
   (loader_version_negotiation ⟨some 99, []⟩ 100 ⟨some 100, []⟩).2 (by decide)⟩

/-- C8: a UA string containing, case-insensitively, any of the substrings
bot, spider, crawl, curl, wget, python or phantomjs is classified by the
Analytic Classifier as browser Bot with empty platform, regardless of the
structural classification. -/
theorem analytic_bot_override (ua : String)
    (h : botWords.any (fun w => containsSub w.data (lowerL ua.data)) = true) :
    idBrowserAnalytic ua = ("Bot", "") := by
  have hs : rxSearch botRe (lowerL ua.data) = true := botRe_search_of_contains h
  unfold idBrowserAnalytic
  simp only [hs, if_true]

/-- Witness for C8 at a curl UA string. -/
theorem analytic_bot_override_witness : idBrowserAnalytic "curl/7.0" = ("Bot", "") :=
  analytic_bot_override "curl/7.0" (by decide)

/-- C9: on the given Chrome-on-Windows-7 UA string, the Fast tier answers
Chrome and the Analytic Classifier answers (Chrome, Win7). -/
theorem chrome_win7_end_to_end :
    idBrowserFastAndDirty
        "Mozilla/5.0 (Windows NT 6.1) AppleWebKit/537.36 (KHTML, like Gecko) Chrome/50.0.2661.102 Safari/537.36"
      = "Chrome" ∧
    idBrowserAnalytic
        "Mozilla/5.0 (Windows NT 6.1) AppleWebKit/537.36 (KHTML, like Gecko) Chrome/50.0.2661.102 Safari/537.36"
      = ("Chrome", "Win7") :=
  ⟨by decide, by decide⟩

/-- C10: normalization is partial: the active DefaultsGroup starts empty
and default resolution looks fields up in it unguarded, so a data row
carrying the value default before any DefaultProperties row makes the
whole load abort (KeyError, modelled as none) instead of substituting a
value. -/
theorem load_aborts_on_unresolvable_default :
    browscapLoad [[("Parent", "SomeGroup"), ("Browser", "default")]] = none := by
  decide

end ScripTrans
